import Mathlib

/-!
Shallow embedding of `src/Scripts/clean_image_background.py`.

Coordinates are integers (Python ints), pixels are 4-channel natural-number
tuples, color arithmetic for the HSV conversion is exact rational arithmetic
standing in for Python floats, and `int()` truncation toward zero is `pytrunc`.
-/

/-- A grid coordinate `(x, y)`, as Python integers. -/
abbrev Pos := ℤ × ℤ

/-- An RGBA pixel as stored by PIL for an RGBA-mode image. -/
structure Pixel where
  r : ℕ
  g : ℕ
  b : ℕ
  a : ℕ
deriving DecidableEq, Repr

/-- The value `(0, 0, 0, 0)` written to every erased pixel. -/
def clearPixel : Pixel := ⟨0, 0, 0, 0⟩

/-- A parsed color bound: three integer components. -/
abbrev Color := ℤ × ℤ × ℤ

/-- Python `int()` on a (finite) rational: truncation toward zero. -/
def pytrunc (q : ℚ) : ℤ := if 0 ≤ q then ⌊q⌋ else ⌈q⌉

/-- `colorsys.rgb_to_hsv` on rationals: inputs in `[0,1]`, hue as a fraction
of a turn in `[0,1)`; `% 1.0` on floats is `Int.fract`. -/
def rgb_to_hsv (r g b : ℚ) : ℚ × ℚ × ℚ :=
  let maxc := max r (max g b)
  let minc := min r (min g b)
  let rangec := maxc - minc
  let v := maxc
  if minc = maxc then (0, 0, v)
  else
    let s := rangec / maxc
    let rc := (maxc - r) / rangec
    let gc := (maxc - g) / rangec
    let bc := (maxc - b) / rangec
    let h := if r = maxc then bc - gc
             else if g = maxc then 2 + rc - bc
             else 4 + gc - rc
    (Int.fract (h / 6), s, v)

/-- `rgb_to_hsv_opencv` from the source: scales the `colorsys` result by
`(179, 255, 255)` and truncates each component with `int()`. -/
def rgb_to_hsv_opencv (r g b : ℕ) : ℤ × ℤ × ℤ :=
  let hsv := rgb_to_hsv ((r : ℚ) / 255) ((g : ℚ) / 255) ((b : ℚ) / 255)
  (pytrunc (hsv.1 * 179), pytrunc (hsv.2.1 * 255), pytrunc (hsv.2.2 * 255))

/-- `is_within_bounds` from the source: componentwise inclusive range test,
after an RGB→HSV conversion when `use_hsv` is set; alpha is ignored. -/
def is_within_bounds (p : Pixel) (lower_bound upper_bound : Color)
    (use_hsv : Bool) : Bool :=
  if use_hsv then
    let hsv := rgb_to_hsv_opencv p.r p.g p.b
    decide (lower_bound.1 ≤ hsv.1 ∧ hsv.1 ≤ upper_bound.1 ∧
      lower_bound.2.1 ≤ hsv.2.1 ∧ hsv.2.1 ≤ upper_bound.2.1 ∧
      lower_bound.2.2 ≤ hsv.2.2 ∧ hsv.2.2 ≤ upper_bound.2.2)
  else
    decide (lower_bound.1 ≤ (p.r : ℤ) ∧ (p.r : ℤ) ≤ upper_bound.1 ∧
      lower_bound.2.1 ≤ (p.g : ℤ) ∧ (p.g : ℤ) ≤ upper_bound.2.1 ∧
      lower_bound.2.2 ≤ (p.b : ℤ) ∧ (p.b : ℤ) ≤ upper_bound.2.2)

/-- The `is_background` closure from `process_image`:
background iff `is_within_bounds ≠ inverse`. -/
def is_background (lower upper : Color) (inverse use_hsv : Bool)
    (p : Pixel) : Bool :=
  is_within_bounds p lower upper use_hsv != inverse

/-- `0 <= x < width and 0 <= y < height`, the validity test for a coordinate. -/
def inGrid (W H : ℕ) (c : Pos) : Bool :=
  decide (0 ≤ c.1 ∧ c.1 < (W : ℤ) ∧ 0 ≤ c.2 ∧ c.2 < (H : ℤ))

example : rgb_to_hsv_opencv 0 0 255 = (119, 255, 255) := by
  norm_num [rgb_to_hsv_opencv, rgb_to_hsv, pytrunc, Int.fract]
example : is_within_bounds ⟨10, 10, 10, 255⟩ (0, 0, 0) (20, 20, 20) false = true := by decide
example : is_background (0, 0, 0) (20, 20, 20) true false ⟨10, 10, 10, 255⟩ = false := by decide

/-! ### String parsing (`parse_color`, `parse_point`)

Python's `str.split`, `str.strip` and `int` are embedded as structurally
recursive functions over `List Char`. `int()` is modelled for an optional
sign followed by a nonempty ASCII digit string (Python additionally accepts
underscores between digits, irrelevant here). A parse failure models the
`ValueError` that `main` turns into `sys.exit(1)` before any image I/O. -/

/-- ASCII whitespace removed by `str.strip()`. -/
def isPySpace (c : Char) : Bool :=
  c = ' ' || c = Char.ofNat 9 || c = Char.ofNat 10 || c = Char.ofNat 13 ||
  c = Char.ofNat 11 || c = Char.ofNat 12

/-- Python `str.split(sep)` for a single-character separator: splits on every
occurrence, keeping empty fields (`"".split(',') == [""]`). -/
def pySplit (sep : Char) : List Char → List (List Char)
  | [] => [[]]
  | c :: rest =>
    let r := pySplit sep rest
    if c = sep then [] :: r
    else match r with
      | [] => [[c]]
      | t :: ts => (c :: t) :: ts

/-- Python `str.strip()`: remove leading and trailing whitespace. -/
def pyStrip (l : List Char) : List Char :=
  ((l.dropWhile isPySpace).reverse.dropWhile isPySpace).reverse

/-- Value of a digit string, most significant first. -/
def digitsToNat : List Char → ℕ → ℕ
  | [], acc => acc
  | c :: rest, acc => digitsToNat rest (acc * 10 + (c.toNat - 48))

/-- Python `int(str)` on an already-stripped token: optional sign, then a
nonempty run of ASCII digits; anything else raises (`none`). -/
def pyInt? (l : List Char) : Option ℤ :=
  let digits := fun (ds : List Char) =>
    decide (ds ≠ []) && ds.all (fun c => decide (48 ≤ c.toNat ∧ c.toNat ≤ 57))
  match l with
  | [] => none
  | c :: rest =>
    if c = '-' then
      if digits rest then some (-(digitsToNat rest 0 : ℤ)) else none
    else if c = '+' then
      if digits rest then some (digitsToNat rest 0 : ℤ) else none
    else
      if digits l then some (digitsToNat l 0 : ℤ) else none

/-- `parse_color` from the source: split on commas, require exactly 3 parts,
convert each stripped token with `int`, then require every component in
`[0, 255]`; any failure raises `ValueError` (modelled as `none`). -/
def parse_color (color_str : String) : Option Color :=
  match pySplit ',' color_str.data with
  | [p1, p2, p3] =>
    match pyInt? (pyStrip p1), pyInt? (pyStrip p2), pyInt? (pyStrip p3) with
    | some r, some g, some b =>
      if 0 ≤ r ∧ r ≤ 255 ∧ 0 ≤ g ∧ g ≤ 255 ∧ 0 ≤ b ∧ b ≤ 255 then
        some (r, g, b)
      else none
    | _, _, _ => none
  | _ => none

/-- `parse_point` from the source: split on commas, require exactly 2 parts,
convert each stripped token with `int`; no range check. -/
def parse_point (point_str : String) : Option Pos :=
  match pySplit ',' point_str.data with
  | [p1, p2] =>
    match pyInt? (pyStrip p1), pyInt? (pyStrip p2) with
    | some x, some y => some (x, y)
    | _, _ => none
  | _ => none

/-- The color-parsing phase of `main`: both bounds must parse, else the
process exits with status 1 before `process_image` (and hence before any
image I/O) runs. The `--hsv` flag is not consulted here. -/
def mainParseColors (lower_str upper_str : String) : Option (Color × Color) :=
  match parse_color lower_str, parse_color upper_str with
  | some lo, some hi => some (lo, hi)
  | _, _ => none

example : parse_color ("200,100,100") = some (200, 100, 100) := by decide
example : parse_color (" 10 , 20,30") = some (10, 20, 30) := by decide
example : parse_color ("300,0,0") = none := by decide
example : parse_color ("1,2") = none := by decide
example : parse_point ("-3, 7") = some (-3, 7) := by decide

/-! ### `process_image`

The raster is a total function `Pos → Pixel` together with its dimensions
`W × H`; PIL's `pixels[x, y] = (0,0,0,0)` is `Function.update`. The flood
branch is a worklist state machine; the source's `stack.append`/`stack.pop()`
discipline is the `stackPush` instance, and everything is parametrized over
the push discipline so that the stack and queue variants share one theory.
The loop is run with `W * H` units of fuel, which is proved sufficient. -/

/-- State of the flood-fill branch: the raster, the visited set, the
worklist, and the running count of modified pixels. -/
structure FloodState where
  img : Pos → Pixel
  visited : Finset Pos
  work : List Pos
  count : ℕ

/-- The source's seeding / pushing pattern, shared by the border loop, the
manual-point loop and the neighbor loop: if the coordinate is not visited
and passes the guard `q` (evaluated on the current raster), mark it visited
and push it. -/
def addCell (push : Pos → List Pos → List Pos) (q : (Pos → Pixel) → Pos → Bool)
    (s : FloodState) (c : Pos) : FloodState :=
  if c ∉ s.visited ∧ q s.img c = true then
    { s with visited := insert c s.visited, work := push c s.work }
  else s

/-- Border coordinates in source order: `(x, 0)` and `(x, H-1)` for each
`x ∈ [0, W)`, then `(0, y)` and `(W-1, y)` for each `y ∈ [1, H-2]`. -/
def borderCoords (W H : ℕ) : List Pos :=
  ((List.range W).flatMap fun x => [((x : ℤ), (0 : ℤ)), ((x : ℤ), (H : ℤ) - 1)]) ++
  ((List.range (H - 2)).flatMap fun i => [((0 : ℤ), (i : ℤ) + 1), ((W : ℤ) - 1, (i : ℤ) + 1)])

/-- The four neighbor offsets `[(-1,0), (1,0), (0,-1), (0,1)]` in source
order, applied to a coordinate. -/
def neighbors (c : Pos) : List Pos :=
  ([(-1, 0), (1, 0), (0, -1), (0, 1)] : List Pos).map fun d => (c.1 + d.1, c.2 + d.2)

/-- One iteration of `while stack:` — pop, erase, count, then push each
in-bounds unvisited background neighbor. -/
def floodStep (push : Pos → List Pos → List Pos) (W H : ℕ) (bg : Pixel → Bool)
    (s : FloodState) : FloodState :=
  match s.work with
  | [] => s
  | c :: rest =>
    let s1 : FloodState :=
      { img := Function.update s.img c clearPixel, visited := s.visited,
        work := rest, count := s.count + 1 }
    (neighbors c).foldl (addCell push (fun img d => inGrid W H d && bg (img d))) s1

/-- The `while stack:` loop, fuelled. -/
def floodLoop (push : Pos → List Pos → List Pos) (W H : ℕ) (bg : Pixel → Bool) :
    ℕ → FloodState → FloodState
  | 0, s => s
  | fuel + 1, s =>
    match s.work with
    | [] => s
    | _ :: _ => floodLoop push W H bg fuel (floodStep push W H bg s)

/-- Seed every unvisited border pixel that matches the background rule. -/
def seedBorder (push : Pos → List Pos → List Pos) (bg : Pixel → Bool) (W H : ℕ)
    (s : FloodState) : FloodState :=
  (borderCoords W H).foldl (addCell push (fun img c => bg (img c))) s

/-- Seed every unvisited in-bounds manual point, unconditionally (no
background test). -/
def seedManual (push : Pos → List Pos → List Pos) (W H : ℕ) (manual : List Pos)
    (s : FloodState) : FloodState :=
  manual.foldl (addCell push (fun _ c => inGrid W H c)) s

/-- The source's worklist discipline: `list.append` + `list.pop()` is LIFO;
with the head of the list as the top, pushing is `cons`. -/
def stackPush (c : Pos) (l : List Pos) : List Pos := c :: l

/-- FIFO variant for the order-independence claim: push at the back. -/
def queuePush (c : Pos) (l : List Pos) : List Pos := l ++ [c]

/-- The flood-fill branch of `process_image`, over a chosen push discipline. -/
def floodWith (push : Pos → List Pos → List Pos) (W H : ℕ) (bg : Pixel → Bool)
    (img : Pos → Pixel) (manual : List Pos) : FloodState :=
  floodLoop push W H bg (W * H)
    (seedManual push W H manual (seedBorder push bg W H ⟨img, ∅, [], 0⟩))

/-- One manual point of the non-flood manual pass: if in bounds, erase it
unconditionally and count it. -/
def manualStep (W H : ℕ) (t : (Pos → Pixel) × ℕ) (p : Pos) : (Pos → Pixel) × ℕ :=
  if inGrid W H p = true then (Function.update t.1 p clearPixel, t.2 + 1) else t

/-- Non-flood manual pass: unconditionally erase and count every in-bounds
manual point, in list order. -/
def manualPass (W H : ℕ) (manual : List Pos) (s : (Pos → Pixel) × ℕ) :
    (Pos → Pixel) × ℕ :=
  manual.foldl (manualStep W H) s

/-- Row-major scan order: `y` outer over `[0, H)`, `x` inner over `[0, W)`. -/
def rowMajorCoords (W H : ℕ) : List Pos :=
  (List.range H).flatMap fun (y : ℕ) => (List.range W).map fun (x : ℕ) => ((x : ℤ), (y : ℤ))

/-- One pixel of the non-flood full scan: erase and count it if its current
value matches the background rule. -/
def scanStep (bg : Pixel → Bool) (t : (Pos → Pixel) × ℕ) (c : Pos) : (Pos → Pixel) × ℕ :=
  if bg (t.1 c) = true then (Function.update t.1 c clearPixel, t.2 + 1) else t

/-- Non-flood full scan: erase and count every pixel whose current value
matches the background rule. -/
def scanPass (W H : ℕ) (bg : Pixel → Bool) (s : (Pos → Pixel) × ℕ) :
    (Pos → Pixel) × ℕ :=
  (rowMajorCoords W H).foldl (scanStep bg) s

/-- `process_image` (after decoding): returns the final raster and the
modified-pixel count that the source prints. -/
def process_image (img : Pos → Pixel) (W H : ℕ) (lower upper : Color)
    (inverse flood_fill : Bool) (manual_points : List Pos) (use_hsv : Bool) :
    (Pos → Pixel) × ℕ :=
  let bg := is_background lower upper inverse use_hsv
  if flood_fill then
    let s := floodWith stackPush W H bg img manual_points
    (s.img, s.count)
  else
    scanPass W H bg (manualPass W H manual_points (img, 0))

/-! ### Worklist lemmas

`addCell` folds (border seeding, manual seeding, and the neighbor push loop)
never touch the raster or the count, extend the visited set by exactly the
guarded elements, and keep the worklist duplicate-free. All of this holds
for any push discipline that is `cons` up to permutation. -/

/-- A push discipline that is `cons` up to permutation; both `stackPush`
and `queuePush` qualify. -/
def PushSpec (push : Pos → List Pos → List Pos) : Prop :=
  ∀ c l, List.Perm (push c l) (c :: l)

theorem stackPush_spec : PushSpec stackPush := fun _ _ => List.Perm.refl _

theorem queuePush_spec : PushSpec queuePush := by
  intro c l
  simp only [queuePush]
  exact List.perm_append_singleton c l

theorem addFold_img {push : Pos → List Pos → List Pos}
    {q : (Pos → Pixel) → Pos → Bool} (cs : List Pos) (s : FloodState) :
    (cs.foldl (addCell push q) s).img = s.img := by
  induction cs generalizing s with
  | nil => rfl
  | cons c cs ih =>
    rw [List.foldl_cons, ih]
    unfold addCell
    split <;> rfl

theorem addFold_count {push : Pos → List Pos → List Pos}
    {q : (Pos → Pixel) → Pos → Bool} (cs : List Pos) (s : FloodState) :
    (cs.foldl (addCell push q) s).count = s.count := by
  induction cs generalizing s with
  | nil => rfl
  | cons c cs ih =>
    rw [List.foldl_cons, ih]
    unfold addCell
    split <;> rfl

theorem addFold_visited {push : Pos → List Pos → List Pos}
    {q : (Pos → Pixel) → Pos → Bool} (cs : List Pos) (s : FloodState) (d : Pos) :
    d ∈ (cs.foldl (addCell push q) s).visited ↔
      d ∈ s.visited ∨ (d ∈ cs ∧ q s.img d = true) := by
  induction cs generalizing s with
  | nil => simp
  | cons c cs ih =>
    rw [List.foldl_cons, ih]
    by_cases hc : c ∉ s.visited ∧ q s.img c = true
    · rw [addCell, if_pos hc]
      simp only [Finset.mem_insert, List.mem_cons]
      by_cases hd : d = c
      · subst hd
        tauto
      · tauto
    · rw [addCell, if_neg hc]
      simp only [List.mem_cons]
      push_neg at hc
      by_cases hd : d = c
      · subst hd
        by_cases hv : d ∈ s.visited
        · tauto
        · have := hc hv
          constructor
          · tauto
          · rintro (h | ⟨h1, h2⟩)
            · exact Or.inl h
            · rcases h1 with h1 | h1
              · exact absurd h2 (by simp [this])
              · exact Or.inr ⟨h1, h2⟩
      · tauto

theorem addFold_work {push : Pos → List Pos → List Pos}
    {q : (Pos → Pixel) → Pos → Bool} (hp : PushSpec push)
    (cs : List Pos) (s : FloodState) (d : Pos) :
    d ∈ (cs.foldl (addCell push q) s).work ↔
      d ∈ s.work ∨ (d ∉ s.visited ∧ d ∈ cs ∧ q s.img d = true) := by
  induction cs generalizing s with
  | nil => simp
  | cons c cs ih =>
    rw [List.foldl_cons, ih]
    by_cases hc : c ∉ s.visited ∧ q s.img c = true
    · rw [addCell, if_pos hc]
      simp only [Finset.mem_insert, List.mem_cons, (hp c s.work).mem_iff]
      by_cases hd : d = c
      · subst hd
        tauto
      · tauto
    · rw [addCell, if_neg hc]
      simp only [List.mem_cons]
      push_neg at hc
      by_cases hd : d = c
      · subst hd
        by_cases hv : d ∈ s.visited
        · tauto
        · have := hc hv
          constructor
          · tauto
          · rintro (h | ⟨h1, h2, h3⟩)
            · exact Or.inl h
            · rcases h2 with h2 | h2
              · exact absurd h3 (by simp [this])
              · exact Or.inr ⟨h1, h2, h3⟩
      · tauto

theorem addFold_len {push : Pos → List Pos → List Pos}
    {q : (Pos → Pixel) → Pos → Bool} (hp : PushSpec push)
    (cs : List Pos) (s : FloodState) :
    (cs.foldl (addCell push q) s).work.length + s.visited.card =
      s.work.length + (cs.foldl (addCell push q) s).visited.card := by
  induction cs generalizing s with
  | nil => rfl
  | cons c cs ih =>
    rw [List.foldl_cons]
    by_cases hc : c ∉ s.visited ∧ q s.img c = true
    · have heq := ih (addCell push q s c)
      rw [addCell, if_pos hc] at heq ⊢
      have hlen : (push c s.work).length = s.work.length + 1 :=
        (hp c s.work).length_eq
      have hcard : (insert c s.visited).card = s.visited.card + 1 :=
        Finset.card_insert_of_not_mem hc.1
      simp only [hlen, hcard] at heq
      omega
    · have heq := ih (addCell push q s c)
      rw [addCell, if_neg hc] at heq ⊢
      exact heq

theorem addFold_nodup {push : Pos → List Pos → List Pos}
    {q : (Pos → Pixel) → Pos → Bool} (hp : PushSpec push)
    (cs : List Pos) (s : FloodState)
    (h1 : s.work.Nodup) (h2 : ∀ d ∈ s.work, d ∈ s.visited) :
    (cs.foldl (addCell push q) s).work.Nodup := by
  induction cs generalizing s with
  | nil => exact h1
  | cons c cs ih =>
    rw [List.foldl_cons]
    by_cases hc : c ∉ s.visited ∧ q s.img c = true
    · refine ih (addCell push q s c) ?_ ?_
      · rw [addCell, if_pos hc]
        refine ((hp c s.work).nodup_iff).mpr ?_
        exact List.Nodup.cons (fun hm => hc.1 (h2 c hm)) h1
      · rw [addCell, if_pos hc]
        intro d hd
        rcases List.mem_cons.mp (((hp c s.work).mem_iff).mp hd) with h | h
        · simp [h]
        · exact Finset.mem_insert_of_mem (h2 d h)
    · rw [addCell, if_neg hc]
      exact ih s h1 h2

/-! ### Reachability and the flood-fill invariant -/

/-- The coordinates the source's flood fill is specified to erase: border
pixels matching the background rule, valid manual seed points, and any
in-bounds background-matching pixel 4-adjacent to a reachable one. -/
inductive Reach (W H : ℕ) (bg : Pixel → Bool) (img : Pos → Pixel)
    (manual : List Pos) : Pos → Prop
  | border (c : Pos) (hc : c ∈ borderCoords W H) (hbg : bg (img c) = true) :
      Reach W H bg img manual c
  | manualSeed (c : Pos) (hc : c ∈ manual) (hin : inGrid W H c = true) :
      Reach W H bg img manual c
  | step (c d : Pos) (hr : Reach W H bg img manual c) (hd : d ∈ neighbors c)
      (hin : inGrid W H d = true) (hbg : bg (img d) = true) :
      Reach W H bg img manual d

/-- The grid as a finite set, for cardinality bounds. -/
def gridFinset (W H : ℕ) : Finset Pos :=
  Finset.Icc (0 : ℤ) ((W : ℤ) - 1) ×ˢ Finset.Icc (0 : ℤ) ((H : ℤ) - 1)

theorem mem_gridFinset {W H : ℕ} {c : Pos} :
    c ∈ gridFinset W H ↔ inGrid W H c = true := by
  simp only [gridFinset, Finset.mem_product, Finset.mem_Icc, inGrid,
    decide_eq_true_eq]
  omega

theorem gridFinset_card (W H : ℕ) : (gridFinset W H).card = W * H := by
  simp only [gridFinset, Finset.card_product, Int.card_Icc]
  have h1 : ((W : ℤ) - 1 + 1 - 0).toNat = W := by omega
  have h2 : ((H : ℤ) - 1 + 1 - 0).toNat = H := by omega
  rw [h1, h2]

theorem card_le_of_inGrid {W H : ℕ} {v : Finset Pos}
    (h : ∀ c ∈ v, inGrid W H c = true) : v.card ≤ W * H := by
  have : v ⊆ gridFinset W H := fun c hc => mem_gridFinset.mpr (h c hc)
  calc v.card ≤ (gridFinset W H).card := Finset.card_le_card this
    _ = W * H := gridFinset_card W H

theorem borderCoords_inGrid {W H : ℕ} (hW : 0 < W) (hH : 0 < H) :
    ∀ c ∈ borderCoords W H, inGrid W H c = true := by
  intro c hc
  simp only [borderCoords, List.mem_append, List.mem_flatMap, List.mem_range,
    List.mem_cons, List.not_mem_nil, or_false] at hc
  simp only [inGrid, decide_eq_true_eq]
  obtain ⟨x, hx, hc | hc⟩ | ⟨i, hi, hc | hc⟩ := hc <;> subst hc <;> dsimp only <;> omega

theorem not_mem_neighbors (c : Pos) : c ∉ neighbors c := by
  simp only [neighbors, List.mem_map, List.mem_cons, List.not_mem_nil, or_false]
  rintro ⟨d, hd, he⟩
  obtain hd | hd | hd | hd := hd <;> subst hd <;>
    rw [Prod.ext_iff] at he <;> dsimp only at he <;> omega

/-- Loop invariant of the flood-fill worklist, relative to the original
raster `img0`: the worklist is duplicate-free and inside the visited set,
the visited set is in-bounds and reachable, exactly the popped cells
(visited, no longer queued) have been erased, the count equals the number
of popped cells, popped cells have had their neighbors processed, and all
seeds are visited. -/
structure FloodInv (W H : ℕ) (bg : Pixel → Bool) (img0 : Pos → Pixel)
    (manual : List Pos) (s : FloodState) : Prop where
  nodup : s.work.Nodup
  workSub : ∀ c ∈ s.work, c ∈ s.visited
  grid : ∀ c ∈ s.visited, inGrid W H c = true
  imgSpec : ∀ c, s.img c =
    if c ∈ s.visited ∧ c ∉ s.work then clearPixel else img0 c
  countEq : s.count + s.work.length = s.visited.card
  reach : ∀ c ∈ s.visited, Reach W H bg img0 manual c
  processed : ∀ c ∈ s.visited, c ∉ s.work →
    ∀ d ∈ neighbors c, inGrid W H d = true → bg (img0 d) = true → d ∈ s.visited
  borderSeeded : ∀ c ∈ borderCoords W H, bg (img0 c) = true → c ∈ s.visited
  manualSeeded : ∀ c ∈ manual, inGrid W H c = true → c ∈ s.visited

theorem init_inv {push : Pos → List Pos → List Pos} (hp : PushSpec push)
    {W H : ℕ} (hW : 0 < W) (hH : 0 < H) (bg : Pixel → Bool)
    (img0 : Pos → Pixel) (manual : List Pos) :
    FloodInv W H bg img0 manual
      (seedManual push W H manual (seedBorder push bg W H ⟨img0, ∅, [], 0⟩)) := by
  set s0 : FloodState := ⟨img0, ∅, [], 0⟩ with hs0
  set s1 := seedBorder push bg W H s0 with hs1
  set s2 := seedManual push W H manual s1 with hs2
  have himg1 : s1.img = img0 := addFold_img _ _
  have himg2 : s2.img = s1.img := addFold_img _ _
  have hv1 : ∀ d, d ∈ s1.visited ↔ d ∈ borderCoords W H ∧ bg (img0 d) = true := by
    intro d
    rw [hs1, seedBorder, addFold_visited]
    simp [hs0]
  have hw1 : ∀ d, d ∈ s1.work ↔ d ∈ borderCoords W H ∧ bg (img0 d) = true := by
    intro d
    rw [hs1, seedBorder, addFold_work hp]
    simp [hs0]
  have hv2 : ∀ d, d ∈ s2.visited ↔
      (d ∈ borderCoords W H ∧ bg (img0 d) = true) ∨
      (d ∈ manual ∧ inGrid W H d = true) := by
    intro d
    rw [hs2, seedManual, addFold_visited]
    simp only [himg1, hv1]
  have hw2 : ∀ d, d ∈ s2.work ↔ d ∈ s2.visited := by
    intro d
    rw [hv2 d, hs2, seedManual, addFold_work hp]
    simp only [himg1, hv1, hw1]
    tauto
  have hcount1 : s1.count = 0 := addFold_count _ _
  have hcount2 : s2.count = s1.count := addFold_count _ _
  have hlen1 : s1.work.length + s0.visited.card = s0.work.length + s1.visited.card :=
    @addFold_len push (fun img c => bg (img c)) hp (borderCoords W H) s0
  have hlen2 : s2.work.length + s1.visited.card = s1.work.length + s2.visited.card :=
    @addFold_len push (fun _ c => inGrid W H c) hp manual s1
  refine ⟨?_, ?_, ?_, ?_, ?_, ?_, ?_, ?_, ?_⟩
  · refine addFold_nodup hp manual s1 (addFold_nodup hp _ s0 ?_ ?_) ?_
    · simp [hs0]
    · simp [hs0]
    · intro d hd
      rw [hw1] at hd
      rw [hv1]
      exact hd
  · intro c hc
    rw [hw2] at hc
    exact hc
  · intro c hc
    rw [hv2] at hc
    rcases hc with ⟨h1, _⟩ | ⟨_, h2⟩
    · exact borderCoords_inGrid hW hH c h1
    · exact h2
  · intro c
    rw [himg2, himg1]
    rw [if_neg]
    rintro ⟨h1, h2⟩
    exact h2 ((hw2 c).mpr h1)
  · have h00 : s0.work.length = 0 := rfl
    have h01 : s0.visited.card = 0 := rfl
    omega
  · intro c hc
    rw [hv2] at hc
    rcases hc with ⟨h1, h2⟩ | ⟨h1, h2⟩
    · exact Reach.border c h1 h2
    · exact Reach.manualSeed c h1 h2
  · intro c hc hcw
    exact absurd ((hw2 c).mpr hc) hcw
  · intro c h1 h2
    rw [hv2]
    exact Or.inl ⟨h1, h2⟩
  · intro c h1 h2
    rw [hv2]
    exact Or.inr ⟨h1, h2⟩

theorem floodStep_nil {push : Pos → List Pos → List Pos} {W H : ℕ}
    {bg : Pixel → Bool} {s : FloodState} (hw : s.work = []) :
    floodStep push W H bg s = s := by
  unfold floodStep
  rw [hw]

theorem floodStep_cons {push : Pos → List Pos → List Pos} {W H : ℕ}
    {bg : Pixel → Bool} {s : FloodState} {c : Pos} {rest : List Pos}
    (hw : s.work = c :: rest) :
    floodStep push W H bg s =
      (neighbors c).foldl (addCell push (fun img d => inGrid W H d && bg (img d)))
        ⟨Function.update s.img c clearPixel, s.visited, rest, s.count + 1⟩ := by
  unfold floodStep
  rw [hw]


set_option maxHeartbeats 1000000 in
theorem floodStep_inv_measure {push : Pos → List Pos → List Pos} (hp : PushSpec push)
    {W H : ℕ} {bg : Pixel → Bool} {img0 : Pos → Pixel} {manual : List Pos}
    {s : FloodState} {c : Pos} {rest : List Pos} (hw : s.work = c :: rest)
    (hinv : FloodInv W H bg img0 manual s) :
    FloodInv W H bg img0 manual (floodStep push W H bg s) ∧
      (W * H - (floodStep push W H bg s).visited.card) +
        (floodStep push W H bg s).work.length <
      (W * H - s.visited.card) + s.work.length := by
  rw [floodStep_cons hw]
  set s1 : FloodState :=
    ⟨Function.update s.img c clearPixel, s.visited, rest, s.count + 1⟩ with hs1
  set t := (neighbors c).foldl
    (addCell push (fun img d => inGrid W H d && bg (img d))) s1 with ht
  have hcv : c ∈ s.visited := hinv.workSub c (by rw [hw]; exact List.mem_cons_self c rest)
  have hcrest : c ∉ rest := by
    have hnd := hinv.nodup
    rw [hw] at hnd
    exact (List.nodup_cons.mp hnd).1
  have hrest_sub : ∀ d ∈ rest, d ∈ s.visited := by
    intro d hd
    exact hinv.workSub d (by rw [hw]; exact List.mem_cons_of_mem c hd)
  have hrest_nd : rest.Nodup := by
    have hnd := hinv.nodup
    rw [hw] at hnd
    exact (List.nodup_cons.mp hnd).2
  have himgt : t.img = s1.img := addFold_img _ _
  have hcountt : t.count = s.count + 1 := addFold_count _ _
  have himg_unvis : ∀ d, d ∉ s.visited → s1.img d = img0 d := by
    intro d hd
    have hdc : d ≠ c := fun h => hd (h ▸ hcv)
    have h1 : s1.img d = s.img d := Function.update_noteq hdc _ _
    rw [h1, hinv.imgSpec d, if_neg (fun h => hd h.1)]
  have hvt : ∀ d, d ∈ t.visited ↔ d ∈ s.visited ∨
      (d ∈ neighbors c ∧ inGrid W H d = true ∧ bg (img0 d) = true) := by
    intro d
    rw [ht, addFold_visited]
    show d ∈ s.visited ∨ (d ∈ neighbors c ∧ (inGrid W H d && bg (s1.img d)) = true) ↔ _
    by_cases hd : d ∈ s.visited
    · simp only [hd, true_or, true_iff]
    · rw [himg_unvis d hd, Bool.and_eq_true]
  have hwt : ∀ d, d ∈ t.work ↔ d ∈ rest ∨
      (d ∉ s.visited ∧ d ∈ neighbors c ∧ inGrid W H d = true ∧ bg (img0 d) = true) := by
    intro d
    rw [ht, addFold_work hp]
    show d ∈ rest ∨ (d ∉ s.visited ∧ d ∈ neighbors c ∧
      (inGrid W H d && bg (s1.img d)) = true) ↔ _
    by_cases hd : d ∈ s.visited
    · tauto
    · rw [himg_unvis d hd, Bool.and_eq_true]
  have hvmono : ∀ d, d ∈ s.visited → d ∈ t.visited := fun d hd => (hvt d).mpr (Or.inl hd)
  have hgridt : ∀ d ∈ t.visited, inGrid W H d = true := by
    intro d hd
    rcases (hvt d).mp hd with h | ⟨_, h, _⟩
    · exact hinv.grid d h
    · exact h
  have hlent : t.work.length + s.visited.card = rest.length + t.visited.card := by
    have h := @addFold_len push (fun img d => inGrid W H d && bg (img d)) hp (neighbors c) s1
    rw [← ht] at h
    exact h
  have hslen : s.work.length = rest.length + 1 := by rw [hw]; rfl
  have hcardmono : s.visited.card ≤ t.visited.card :=
    Finset.card_le_card (fun d hd => hvmono d hd)
  have hcardle : t.visited.card ≤ W * H := card_le_of_inGrid hgridt
  refine ⟨⟨?_, ?_, ?_, ?_, ?_, ?_, ?_, ?_, ?_⟩, ?_⟩
  · exact addFold_nodup hp _ s1 hrest_nd hrest_sub
  · intro d hd
    rcases (hwt d).mp hd with h | ⟨_, h2, h3, h4⟩
    · exact hvmono d (hrest_sub d h)
    · exact (hvt d).mpr (Or.inr ⟨h2, h3, h4⟩)
  · exact hgridt
  · intro d
    rw [himgt]
    by_cases hdc : d = c
    · subst hdc
      have h1 : s1.img d = clearPixel := Function.update_same d clearPixel s.img
      have h2 : d ∈ t.visited := hvmono d hcv
      have h3 : d ∉ t.work := by
        intro hdw
        rcases (hwt d).mp hdw with h | ⟨h, _⟩
        · exact hcrest h
        · exact h hcv
      rw [h1, if_pos ⟨h2, h3⟩]
    · have h1 : s1.img d = s.img d := Function.update_noteq hdc _ _
      rw [h1, hinv.imgSpec d]
      by_cases hv : d ∈ s.visited
      · by_cases hrest : d ∈ rest
        · have hA : ¬(d ∈ s.visited ∧ d ∉ s.work) := by
            rintro ⟨_, h2⟩
            exact h2 (by rw [hw]; exact List.mem_cons_of_mem c hrest)
          have hB : ¬(d ∈ t.visited ∧ d ∉ t.work) := by
            rintro ⟨_, h2⟩
            exact h2 ((hwt d).mpr (Or.inl hrest))
          rw [if_neg hA, if_neg hB]
        · have hA : d ∈ s.visited ∧ d ∉ s.work := by
            refine ⟨hv, ?_⟩
            rw [hw]
            intro hm
            rcases List.mem_cons.mp hm with h' | h'
            · exact hdc h'
            · exact hrest h'
          have hB : d ∈ t.visited ∧ d ∉ t.work := by
            refine ⟨hvmono d hv, ?_⟩
            intro hdw
            rcases (hwt d).mp hdw with h' | ⟨h', _⟩
            · exact hrest h'
            · exact h' hv
          rw [if_pos hA, if_pos hB]
      · have hA : ¬(d ∈ s.visited ∧ d ∉ s.work) := fun h => hv h.1
        have hB : ¬(d ∈ t.visited ∧ d ∉ t.work) := by
          rintro ⟨h2, h3⟩
          rcases (hvt d).mp h2 with h' | h'
          · exact hv h'
          · exact h3 ((hwt d).mpr (Or.inr ⟨hv, h'⟩))
        rw [if_neg hA, if_neg hB]
  · have h := hinv.countEq
    omega
  · intro d hd
    rcases (hvt d).mp hd with h | ⟨h1, h2, h3⟩
    · exact hinv.reach d h
    · exact Reach.step c d (hinv.reach c hcv) h1 h2 h3
  · intro e he hew d hd hin hbg
    by_cases hes : e ∈ s.visited
    · by_cases hec : e = c
      · subst hec
        exact (hvt d).mpr (Or.inr ⟨hd, hin, hbg⟩)
      · have hesw : e ∉ s.work := by
          rw [hw]
          intro hm
          rcases List.mem_cons.mp hm with h' | h'
          · exact hec h'
          · exact hew ((hwt e).mpr (Or.inl h'))
        exact hvmono d (hinv.processed e hes hesw d hd hin hbg)
    · rcases (hvt e).mp he with h | h
      · exact absurd h hes
      · exact absurd ((hwt e).mpr (Or.inr ⟨hes, h⟩)) hew
  · intro d h1 h2
    exact hvmono d (hinv.borderSeeded d h1 h2)
  · intro d h1 h2
    exact hvmono d (hinv.manualSeeded d h1 h2)
  · omega

theorem floodLoop_zero {push : Pos → List Pos → List Pos} {W H : ℕ}
    {bg : Pixel → Bool} {s : FloodState} : floodLoop push W H bg 0 s = s := rfl

theorem floodLoop_succ_nil {push : Pos → List Pos → List Pos} {W H : ℕ}
    {bg : Pixel → Bool} {s : FloodState} {fuel : ℕ} (hw : s.work = []) :
    floodLoop push W H bg (fuel + 1) s = s := by
  unfold floodLoop
  rw [hw]

theorem floodLoop_succ_cons {push : Pos → List Pos → List Pos} {W H : ℕ}
    {bg : Pixel → Bool} {s : FloodState} {fuel : ℕ} {c : Pos} {rest : List Pos}
    (hw : s.work = c :: rest) :
    floodLoop push W H bg (fuel + 1) s =
      floodLoop push W H bg fuel (floodStep push W H bg s) := by
  conv_lhs => rw [floodLoop]
  rw [hw]

/-- With fuel at least the standard measure `(W*H − |visited|) + |work|`,
the worklist loop reaches the empty worklist and preserves the invariant. -/
theorem floodLoop_final {push : Pos → List Pos → List Pos} (hp : PushSpec push)
    {W H : ℕ} {bg : Pixel → Bool} {img0 : Pos → Pixel} {manual : List Pos}
    (fuel : ℕ) :
    ∀ s : FloodState, FloodInv W H bg img0 manual s →
      (W * H - s.visited.card) + s.work.length ≤ fuel →
      FloodInv W H bg img0 manual (floodLoop push W H bg fuel s) ∧
        (floodLoop push W H bg fuel s).work = [] := by
  induction fuel with
  | zero =>
    intro s hinv hfuel
    rw [floodLoop_zero]
    have hlen : s.work.length = 0 := by omega
    exact ⟨hinv, List.length_eq_zero.mp hlen⟩
  | succ fuel ih =>
    intro s hinv hfuel
    cases hw : s.work with
    | nil =>
      rw [floodLoop_succ_nil hw]
      exact ⟨hinv, hw⟩
    | cons c rest =>
      rw [floodLoop_succ_cons hw]
      obtain ⟨hinv2, hdec⟩ := floodStep_inv_measure hp hw hinv
      refine ih _ hinv2 ?_
      rw [hw] at hfuel hdec
      simp only [List.length_cons] at hfuel hdec
      omega

/-- Once the worklist is empty, the invariant pins the final state down:
visited = reachable, count = number of visited cells, and the raster is the
original with exactly the visited cells cleared. -/
theorem final_state_spec {W H : ℕ} {bg : Pixel → Bool} {img0 : Pos → Pixel}
    {manual : List Pos} {s : FloodState}
    (hinv : FloodInv W H bg img0 manual s) (hw : s.work = []) :
    (∀ c, c ∈ s.visited ↔ Reach W H bg img0 manual c) ∧
    s.count = s.visited.card ∧
    (∀ c, s.img c = if c ∈ s.visited then clearPixel else img0 c) := by
  have hcompl : ∀ c, Reach W H bg img0 manual c → c ∈ s.visited := by
    intro c hr
    induction hr with
    | border d hd hbg => exact hinv.borderSeeded d hd hbg
    | manualSeed d hd hin => exact hinv.manualSeeded d hd hin
    | step d e hr2 hd hin hbg ih =>
      exact hinv.processed d ih (by rw [hw]; exact List.not_mem_nil d) e hd hin hbg
  refine ⟨fun c => ⟨fun h => hinv.reach c h, hcompl c⟩, ?_, ?_⟩
  · have h := hinv.countEq
    rw [hw] at h
    simpa using h
  · intro c
    have h := hinv.imgSpec c
    rw [hw] at h
    simpa using h

/-- Master specification of the flood-fill branch for any sound push
discipline. -/
theorem floodWith_spec {push : Pos → List Pos → List Pos} (hp : PushSpec push)
    {W H : ℕ} (hW : 0 < W) (hH : 0 < H) (bg : Pixel → Bool)
    (img0 : Pos → Pixel) (manual : List Pos) :
    (floodWith push W H bg img0 manual).work = [] ∧
    (∀ c, c ∈ (floodWith push W H bg img0 manual).visited ↔
        Reach W H bg img0 manual c) ∧
    (floodWith push W H bg img0 manual).count =
      (floodWith push W H bg img0 manual).visited.card ∧
    (∀ c, (floodWith push W H bg img0 manual).img c =
        if c ∈ (floodWith push W H bg img0 manual).visited then clearPixel
        else img0 c) ∧
    (floodWith push W H bg img0 manual).count ≤ W * H := by
  have hinv0 := init_inv hp hW hH bg img0 manual
  have h1 := hinv0.countEq
  have h2 := card_le_of_inGrid hinv0.grid
  have hrun := floodLoop_final hp (W * H) _ hinv0 (by omega)
  have hfin := final_state_spec hrun.1 hrun.2
  have hcard := card_le_of_inGrid hrun.1.grid
  refine ⟨hrun.2, hfin.1, hfin.2.1, hfin.2.2, ?_⟩
  rw [floodWith] at *
  omega

/-! ### Non-flood lemmas -/

theorem rowMajor_mem {W H : ℕ} {c : Pos} :
    c ∈ rowMajorCoords W H ↔ inGrid W H c = true := by
  simp only [rowMajorCoords, List.mem_flatMap, List.mem_map, List.mem_range,
    inGrid, decide_eq_true_eq]
  constructor
  · rintro ⟨y, hy, x, hx, rfl⟩
    dsimp only
    omega
  · rintro ⟨h1, h2, h3, h4⟩
    refine ⟨c.2.toNat, by omega, c.1.toNat, by omega, ?_⟩
    rw [Prod.ext_iff]
    dsimp only
    omega

theorem rowMajor_nodup (W H : ℕ) : (rowMajorCoords W H).Nodup := by
  rw [rowMajorCoords, List.nodup_flatMap]
  constructor
  · intro y _
    refine List.Nodup.map ?_ (List.nodup_range W)
    intro a b hab
    simp only [Prod.mk.injEq, Nat.cast_inj] at hab
    exact hab.1
  · refine List.Pairwise.imp ?_ (List.pairwise_lt_range H)
    intro y1 y2 hlt a ha1 ha2
    simp only [Function.onFun, List.mem_map, List.mem_range] at ha1 ha2
    obtain ⟨x1, _, he1⟩ := ha1
    obtain ⟨x2, _, he2⟩ := ha2
    rw [← he2] at he1
    simp only [Prod.mk.injEq, Nat.cast_inj] at he1
    omega

theorem scanFold_count (bg : Pixel → Bool) :
    ∀ (l : List Pos) (img : Pos → Pixel) (n : ℕ), l.Nodup →
      (l.foldl (scanStep bg) (img, n)).2 = n + (l.filter (fun c => bg (img c))).length
  | [], img, n, _ => by simp
  | c :: rest, img, n, hnd => by
    obtain ⟨hc, hrest⟩ := List.nodup_cons.mp hnd
    rw [List.foldl_cons, List.filter_cons]
    by_cases hbg : bg (img c) = true
    · have hstep : scanStep bg (img, n) c = (Function.update img c clearPixel, n + 1) := by
        rw [scanStep]
        exact if_pos hbg
      rw [hstep, scanFold_count bg rest _ _ hrest]
      have hcongr : rest.filter (fun d => bg (Function.update img c clearPixel d)) =
          rest.filter (fun d => bg (img d)) := by
        apply List.filter_congr
        intro d hd
        have hdc : d ≠ c := by
          intro h
          subst h
          exact hc hd
        rw [Function.update_noteq hdc _ _]
      rw [hcongr, hbg]
      simp only [if_true]
      rw [List.length_cons]
      omega
    · have hstep : scanStep bg (img, n) c = (img, n) := by
        rw [scanStep]
        exact if_neg hbg
      rw [hstep, scanFold_count bg rest _ _ hrest]
      simp only [Bool.not_eq_true] at hbg
      rw [hbg]
      simp only [Bool.false_eq_true, if_false]

theorem scanFold_img (bg : Pixel → Bool) :
    ∀ (l : List Pos) (s : (Pos → Pixel) × ℕ) (c : Pos),
      (l.foldl (scanStep bg) s).1 c = s.1 c ∨ (l.foldl (scanStep bg) s).1 c = clearPixel
  | [], s, c => Or.inl rfl
  | d :: rest, s, c => by
    rw [List.foldl_cons]
    rcases scanFold_img bg rest (scanStep bg s d) c with h | h
    · rw [h, scanStep]
      split
      · by_cases hdc : c = d
        · subst hdc
          exact Or.inr (Function.update_same c clearPixel s.1)
        · exact Or.inl (Function.update_noteq hdc _ _)
      · exact Or.inl rfl
    · exact Or.inr h

theorem manualFold_img (W H : ℕ) :
    ∀ (l : List Pos) (s : (Pos → Pixel) × ℕ) (c : Pos),
      (l.foldl (manualStep W H) s).1 c = s.1 c ∨
        (l.foldl (manualStep W H) s).1 c = clearPixel
  | [], s, c => Or.inl rfl
  | d :: rest, s, c => by
    rw [List.foldl_cons]
    rcases manualFold_img W H rest (manualStep W H s d) c with h | h
    · rw [h, manualStep]
      split
      · by_cases hdc : c = d
        · subst hdc
          exact Or.inr (Function.update_same c clearPixel s.1)
        · exact Or.inl (Function.update_noteq hdc _ _)
      · exact Or.inl rfl
    · exact Or.inr h

theorem filter_split_at {l : List Pos} {f : Pos → Bool} {p : Pos}
    (hnd : l.Nodup) (hp : p ∈ l) (hfp : f p = true) :
    (l.filter f).length =
      1 + (l.filter (fun c => decide (c ≠ p) && f c)).length := by
  induction l with
  | nil => cases hp
  | cons c rest ih =>
    obtain ⟨hc, hrest⟩ := List.nodup_cons.mp hnd
    rw [List.filter_cons, List.filter_cons]
    by_cases hcp : c = p
    · subst hcp
      have h2 : (decide (c ≠ c) && f c) = false := by simp
      rw [h2, hfp]
      simp only [if_true, Bool.false_eq_true, if_false, List.length_cons]
      have hcongr : rest.filter (fun d => decide (d ≠ c) && f d) = rest.filter f := by
        apply List.filter_congr
        intro d hd
        have hdc : d ≠ c := by
          intro h
          subst h
          exact hc hd
        simp [hdc]
      rw [hcongr]
      omega
    · have hp2 : p ∈ rest := by
        rcases List.mem_cons.mp hp with h | h
        · exact absurd h.symm hcp
        · exact h
      have h2 : (decide (c ≠ p) && f c) = f c := by simp [hcp]
      rw [h2]
      by_cases hfc : f c = true
      · rw [hfc]
        simp only [if_true, List.length_cons]
        rw [ih hrest hp2]
        omega
      · simp only [Bool.not_eq_true] at hfc
        rw [hfc]
        simp only [Bool.false_eq_true, if_false]
        exact ih hrest hp2

/-! ### Claim-level helpers -/

theorem process_image_flood (img : Pos → Pixel) (W H : ℕ) (lower upper : Color)
    (inverse : Bool) (manual : List Pos) (use_hsv : Bool) :
    process_image img W H lower upper inverse true manual use_hsv =
      ((floodWith stackPush W H (is_background lower upper inverse use_hsv) img manual).img,
       (floodWith stackPush W H (is_background lower upper inverse use_hsv) img manual).count) :=
  rfl

theorem process_image_nonflood (img : Pos → Pixel) (W H : ℕ) (lower upper : Color)
    (inverse : Bool) (manual : List Pos) (use_hsv : Bool) :
    process_image img W H lower upper inverse false manual use_hsv =
      scanPass W H (is_background lower upper inverse use_hsv)
        (manualPass W H manual (img, 0)) :=
  rfl

theorem floodLoop_of_empty {push : Pos → List Pos → List Pos} {W H : ℕ}
    {bg : Pixel → Bool} {s : FloodState} (fuel : ℕ) (hw : s.work = []) :
    floodLoop push W H bg fuel s = s := by
  cases fuel with
  | zero => exact floodLoop_zero
  | succ fuel => exact floodLoop_succ_nil hw

/-- If no border pixel matches the rule and no manual point is in bounds,
the flood branch seeds nothing, erases nothing, and counts nothing. -/
theorem flood_noSeeds_spec (img : Pos → Pixel) (W H : ℕ) (lower upper : Color)
    (inverse use_hsv : Bool) (manual : List Pos)
    (h1 : ∀ c ∈ borderCoords W H,
      is_background lower upper inverse use_hsv (img c) = false)
    (h2 : ∀ p ∈ manual, inGrid W H p = false) :
    (process_image img W H lower upper inverse true manual use_hsv).2 = 0 ∧
    ∀ c, (process_image img W H lower upper inverse true manual use_hsv).1 c = img c := by
  rw [process_image_flood]
  set bg := is_background lower upper inverse use_hsv with hbg
  set s0 : FloodState := ⟨img, ∅, [], 0⟩ with hs0
  set s1 := seedBorder stackPush bg W H s0 with hs1
  set s2 := seedManual stackPush W H manual s1 with hs2
  have himg1 : s1.img = img := addFold_img _ _
  have himg2 : s2.img = s1.img := addFold_img _ _
  have hw1 : ∀ d, d ∉ s1.work := by
    intro d hd
    rw [hs1, seedBorder, addFold_work stackPush_spec] at hd
    simp only [hs0] at hd
    rcases hd with hd | ⟨_, hd1, hd2⟩
    · simp at hd
    · rw [h1 d hd1] at hd2
      cases hd2
  have hv1 : ∀ d, d ∈ s1.visited → d ∈ borderCoords W H ∧ bg (img d) = true := by
    intro d hd
    rw [hs1, seedBorder, addFold_visited] at hd
    simp only [hs0] at hd
    rcases hd with hd | hd
    · simp at hd
    · exact hd
  have hw2 : s2.work = [] := by
    rw [List.eq_nil_iff_forall_not_mem]
    intro d hd
    rw [hs2, seedManual, addFold_work stackPush_spec] at hd
    rcases hd with hd | ⟨_, hd1, hd2⟩
    · exact hw1 d hd
    · rw [h2 d hd1] at hd2
      cases hd2
  have hrun : floodWith stackPush W H bg img manual = s2 := by
    rw [floodWith]
    exact floodLoop_of_empty (W * H) hw2
  have hc1 : s1.count = 0 := addFold_count _ _
  have hc2 : s2.count = s1.count := addFold_count _ _
  rw [hrun]
  refine ⟨by rw [hc2, hc1], ?_⟩
  intro c
  rw [himg2, himg1]

/-- If nothing at all matches the rule on the border and the manual list is
empty, nothing is reachable. -/
theorem no_seed_no_reach {W H : ℕ} {bg : Pixel → Bool} {img : Pos → Pixel}
    {manual : List Pos}
    (h1 : ∀ d ∈ borderCoords W H, bg (img d) = false) (h2 : manual = []) :
    ∀ c, ¬ Reach W H bg img manual c := by
  intro c hr
  induction hr with
  | border d hd hbg =>
    rw [h1 d hd] at hbg
    cases hbg
  | manualSeed d hd _ =>
    rw [h2] at hd
    cases hd
  | step d e _ _ _ _ ih => exact ih

theorem floodLoop_img_cases {push : Pos → List Pos → List Pos} {W H : ℕ}
    {bg : Pixel → Bool} (img0 : Pos → Pixel) :
    ∀ (fuel : ℕ) (s : FloodState),
      (∀ c, s.img c = img0 c ∨ s.img c = clearPixel) →
      ∀ c, (floodLoop push W H bg fuel s).img c = img0 c ∨
        (floodLoop push W H bg fuel s).img c = clearPixel := by
  intro fuel
  induction fuel with
  | zero =>
    intro s h c
    rw [floodLoop_zero]
    exact h c
  | succ fuel ih =>
    intro s h c
    cases hw : s.work with
    | nil =>
      rw [floodLoop_succ_nil hw]
      exact h c
    | cons d rest =>
      rw [floodLoop_succ_cons hw]
      apply ih
      intro e
      rw [floodStep_cons hw, addFold_img]
      show Function.update s.img d clearPixel e = img0 e ∨
        Function.update s.img d clearPixel e = clearPixel
      by_cases hed : e = d
      · subst hed
        exact Or.inr (Function.update_same e clearPixel s.img)
      · rw [Function.update_noteq hed _ _]
        exact h e

/-! ### Concrete test rasters -/

/-- 3×3 scenario raster: center pixel `(200,200,200)`, every other position
`(10,10,10)`. -/
def imgCenter : Pos → Pixel :=
  fun c => if c = (1, 1) then ⟨200, 200, 200, 255⟩ else ⟨10, 10, 10, 255⟩

/-- Uniform gray raster: every position `(10,10,10)`. -/
def imgGray : Pos → Pixel := fun _ => ⟨10, 10, 10, 255⟩

/-! ### Spec-side standard HSV reference (for the conversion claim)

These definitions follow the claim's wording — the standard hue in degrees
in `[0,360)`, and saturation/value in `[0,1]` — independently of the
`colorsys` code path, for comparison with `rgb_to_hsv_opencv`. -/

/-- Standard hue in degrees `[0, 360)` of an 8-bit RGB triple. -/
def stdHueDeg (r g b : ℕ) : ℚ :=
  let mx : ℚ := max (r : ℚ) (max (g : ℚ) (b : ℚ))
  let mn : ℚ := min (r : ℚ) (min (g : ℚ) (b : ℚ))
  let d := mx - mn
  if d = 0 then 0
  else if (r : ℚ) = mx then 360 * Int.fract (((g : ℚ) - (b : ℚ)) / d / 6)
  else if (g : ℚ) = mx then 120 + 60 * (((b : ℚ) - (r : ℚ)) / d)
  else 240 + 60 * (((r : ℚ) - (g : ℚ)) / d)

/-- Standard saturation in `[0, 1]` of an 8-bit RGB triple. -/
def stdSat (r g b : ℕ) : ℚ :=
  let mx : ℚ := max (r : ℚ) (max (g : ℚ) (b : ℚ))
  let mn : ℚ := min (r : ℚ) (min (g : ℚ) (b : ℚ))
  if mx = 0 then 0 else (mx - mn) / mx

/-- Standard value in `[0, 1]` of an 8-bit RGB triple. -/
def stdVal (r g b : ℕ) : ℚ :=
  max (r : ℚ) (max (g : ℚ) (b : ℚ)) / 255

/-! ### Claims -/

/-- C3 (code bug): for pure blue `(0,0,255)` the code returns hue `119`
(`int(h*179)`), while the claim's standard-hue-over-2 truncation — which is
also what the function's own docstring promises via the OpenCV convention —
gives `⌊240/2⌋ = 120`. The saturation and value components do match the
claim's `×255` truncation. -/
theorem C3_hue_bug :
    rgb_to_hsv_opencv 0 0 255 = (119, 255, 255) ∧
    pytrunc (stdHueDeg 0 0 255 / 2) = 120 ∧
    pytrunc (stdSat 0 0 255 * 255) = 255 ∧
    pytrunc (stdVal 0 0 255 * 255) = 255 := by
  refine ⟨?_, ?_, ?_, ?_⟩ <;>
    norm_num [rgb_to_hsv_opencv, rgb_to_hsv, pytrunc, Int.fract, stdHueDeg,
      stdSat, stdVal, max_def, min_def]

/-- C8 (confirmed): for every pixel, color range, and color-space flag, the
background classification with `inverse = true` is the boolean negation of
the classification with `inverse = false`. -/
theorem C8_inversion_law (lower upper : Color) (use_hsv : Bool) (p : Pixel) :
    is_background lower upper true use_hsv p =
      !(is_background lower upper false use_hsv p) := by
  rw [is_background, is_background]
  cases is_within_bounds p lower upper use_hsv <;> rfl

/-- C10 (confirmed): in both modes, after processing every position either
holds its exact original RGBA value or holds exactly `(0,0,0,0)`. -/
theorem C10_transparent_black_only (flood_fill : Bool) (img : Pos → Pixel)
    (W H : ℕ) (lower upper : Color) (inverse use_hsv : Bool)
    (manual : List Pos) (c : Pos) :
    (process_image img W H lower upper inverse flood_fill manual use_hsv).1 c = img c ∨
    (process_image img W H lower upper inverse flood_fill manual use_hsv).1 c = clearPixel := by
  cases flood_fill with
  | true =>
    rw [process_image_flood, floodWith]
    apply floodLoop_img_cases img
    intro e
    have h1 : (seedManual stackPush W H manual
        (seedBorder stackPush (is_background lower upper inverse use_hsv) W H
          ⟨img, ∅, [], 0⟩)).img = img := by
      rw [seedManual, addFold_img, seedBorder, addFold_img]
    rw [h1]
    exact Or.inl rfl
  | false =>
    rw [process_image_nonflood, scanPass]
    rcases scanFold_img (is_background lower upper inverse use_hsv)
      (rowMajorCoords W H) (manualPass W H manual (img, 0)) c with h | h
    · rw [h, manualPass]
      rcases manualFold_img W H manual (img, 0) c with h2 | h2
      · rw [h2]
        exact Or.inl rfl
      · exact Or.inr h2
    · exact Or.inr h

/-- C1 (corrected, counterexample): a 1×1 image whose pixel `(10,10,10)`
matches the rule `[(5,5,5),(20,20,20)]`, with manual point `(0,0)`, in
non-flood mode: the claim predicts the pixel is counted twice (count 2),
but the count is 1 — after the manual pass erases it to `(0,0,0,0)`, the
scan re-reads the erased value, which no longer matches. -/
theorem C1_counterexample :
    is_background (5, 5, 5) (20, 20, 20) false false ⟨10, 10, 10, 255⟩ = true ∧
    (process_image imgGray 1 1 (5, 5, 5) (20, 20, 20) false false
      [(0, 0)] false).2 = 1 :=
  ⟨by decide, by decide⟩

/-- C1 (corrected): in non-flood mode a valid manual seed point is counted
once by the manual pass, and counted a second time by the scan exactly when
the erased value `(0,0,0,0)` — not the original pixel — matches the
background rule: the total count is then `2` plus the matches elsewhere. -/
theorem C1_amended (img : Pos → Pixel) (W H : ℕ) (lower upper : Color)
    (inverse use_hsv : Bool) (p : Pos) (hin : inGrid W H p = true)
    (hblack : is_background lower upper inverse use_hsv clearPixel = true) :
    (process_image img W H lower upper inverse false [p] use_hsv).2 =
      2 + ((rowMajorCoords W H).filter
        (fun c => decide (c ≠ p) && is_background lower upper inverse use_hsv
          (Function.update img p clearPixel c))).length := by
  rw [process_image_nonflood]
  have hman : manualPass W H [p] (img, 0) = (Function.update img p clearPixel, 1) := by
    rw [manualPass, List.foldl_cons, List.foldl_nil, manualStep, if_pos hin]
  rw [hman, scanPass]
  rw [scanFold_count (is_background lower upper inverse use_hsv)
    (rowMajorCoords W H) (Function.update img p clearPixel) 1 (rowMajor_nodup W H)]
  have hfp : is_background lower upper inverse use_hsv
      (Function.update img p clearPixel p) = true := by
    rw [Function.update_same]
    exact hblack
  rw [filter_split_at (rowMajor_nodup W H) (rowMajor_mem.mpr hin) hfp]
  omega

theorem C1_amended_witness :
    inGrid 1 1 (0, 0) = true ∧
    is_background (0, 0, 0) (20, 20, 20) false false clearPixel = true ∧
    (process_image imgGray 1 1 (0, 0, 0) (20, 20, 20) false false
      [(0, 0)] false).2 =
      2 + ((rowMajorCoords 1 1).filter
        (fun c => decide (c ≠ ((0 : ℤ), (0 : ℤ))) &&
          is_background (0, 0, 0) (20, 20, 20) false false
            (Function.update imgGray (0, 0) clearPixel c))).length :=
  ⟨by decide, by decide,
    C1_amended imgGray 1 1 (0, 0, 0) (20, 20, 20) false false (0, 0)
      (by decide) (by decide)⟩

/-- C2 (corrected, counterexample): 1×1 image whose only (border) pixel does
not match the rule, manual point `(0,0)` whose pixel does not match either;
the claim predicts zero modified pixels, but the manual point is seeded
unconditionally and erased: count is 1. -/
theorem C2_counterexample :
    is_background (50, 50, 50) (60, 60, 60) false false (imgGray (0, 0)) = false ∧
    (process_image imgGray 1 1 (50, 50, 50) (60, 60, 60) false true
      [(0, 0)] false).2 = 1 :=
  ⟨by decide, by decide⟩

/-- C2 (corrected): flood mode modifies zero pixels iff there are no seeds
at all — no border pixel matches the rule AND no manual point is in bounds
(a valid manual seed is erased even when its pixel does not match). -/
theorem C2_amended (img : Pos → Pixel) (W H : ℕ) (lower upper : Color)
    (inverse use_hsv : Bool) (manual : List Pos)
    (h1 : ∀ c ∈ borderCoords W H,
      is_background lower upper inverse use_hsv (img c) = false)
    (h2 : ∀ p ∈ manual, inGrid W H p = false) :
    (process_image img W H lower upper inverse true manual use_hsv).2 = 0 ∧
    ∀ c, (process_image img W H lower upper inverse true manual use_hsv).1 c = img c :=
  flood_noSeeds_spec img W H lower upper inverse use_hsv manual h1 h2

theorem C2_amended_witness :
    (process_image imgGray 1 1 (50, 50, 50) (60, 60, 60) false true
      [(5, 5)] false).2 = 0 ∧
    (process_image imgGray 1 1 (50, 50, 50) (60, 60, 60) false true
      [(5, 5)] false).1 (0, 0) = imgGray (0, 0) :=
  ⟨(C2_amended imgGray 1 1 (50, 50, 50) (60, 60, 60) false false [(5, 5)]
      (by decide) (by decide)).1,
   (C2_amended imgGray 1 1 (50, 50, 50) (60, 60, 60) false false [(5, 5)]
      (by decide) (by decide)).2 (0, 0)⟩

/-- C5 (corrected, counterexample): 3×3 image, center `(200,200,200)`,
border `(10,10,10)`, range `[(0,0,0),(20,20,20)]`, RGB, flood fill,
`inverse = true`, no manual points. The claim predicts exactly 1 erased
pixel (the center); in fact no border pixel matches the inverted rule, so
there are no seeds: 0 pixels are erased and the center keeps its color. -/
theorem C5_counterexample :
    (process_image imgCenter 3 3 (0, 0, 0) (20, 20, 20) true true [] false).2 = 0 ∧
    (process_image imgCenter 3 3 (0, 0, 0) (20, 20, 20) true true [] false).1 (1, 1) =
      ⟨200, 200, 200, 255⟩ :=
  ⟨by decide, by decide⟩

/-- C5 (corrected): in the inverse scenario the flood fill erases exactly 0
pixels and every pixel of the raster is unchanged. -/
theorem C5_amended :
    (process_image imgCenter 3 3 (0, 0, 0) (20, 20, 20) true true [] false).2 = 0 ∧
    ∀ c, (process_image imgCenter 3 3 (0, 0, 0) (20, 20, 20) true true [] false).1 c =
      imgCenter c := by
  apply flood_noSeeds_spec
  · decide
  · decide

/-- C6 (confirmed): in flood mode, a background-matching pixel that is not
reachable — through 4-adjacent in-bounds background-matching pixels — from a
matching border pixel or a valid manual seed keeps its exact original RGBA
value. -/
theorem C6_containment (img : Pos → Pixel) (W H : ℕ) (lower upper : Color)
    (inverse use_hsv : Bool) (manual : List Pos) (c : Pos)
    (hW : 0 < W) (hH : 0 < H)
    (_hbg : is_background lower upper inverse use_hsv (img c) = true)
    (hnr : ¬ Reach W H (is_background lower upper inverse use_hsv) img manual c) :
    (process_image img W H lower upper inverse true manual use_hsv).1 c = img c := by
  rw [process_image_flood]
  obtain ⟨hwork, hvis, hcnt, himg, hle⟩ :=
    floodWith_spec stackPush_spec hW hH (is_background lower upper inverse use_hsv)
      img manual
  show (floodWith stackPush W H (is_background lower upper inverse use_hsv)
    img manual).img c = img c
  rw [himg c, if_neg]
  intro hc
  exact hnr ((hvis c).mp hc)

theorem C6_containment_witness :
    (process_image imgCenter 3 3 (0, 0, 0) (20, 20, 20) true true [] false).1 (1, 1) =
      imgCenter (1, 1) :=
  C6_containment imgCenter 3 3 (0, 0, 0) (20, 20, 20) true false [] (1, 1)
    (by decide) (by decide) (by decide)
    (no_seed_no_reach (by decide) rfl (1, 1))

/-- C7 (confirmed): the flood-fill worklist loop, run with fuel `W*H`,
terminates with an empty worklist; the number of pop iterations (the count)
equals the number of distinct visited coordinates — each coordinate is
pushed at most once — and is at most `W*H`. -/
theorem C7_single_visit_termination (img : Pos → Pixel) (W H : ℕ)
    (lower upper : Color) (inverse use_hsv : Bool) (manual : List Pos)
    (hW : 0 < W) (hH : 0 < H) :
    (floodWith stackPush W H (is_background lower upper inverse use_hsv)
        img manual).work = [] ∧
    (floodWith stackPush W H (is_background lower upper inverse use_hsv)
        img manual).count =
      (floodWith stackPush W H (is_background lower upper inverse use_hsv)
        img manual).visited.card ∧
    (floodWith stackPush W H (is_background lower upper inverse use_hsv)
        img manual).count ≤ W * H := by
  obtain ⟨hwork, hvis, hcnt, himg, hle⟩ :=
    floodWith_spec stackPush_spec hW hH (is_background lower upper inverse use_hsv)
      img manual
  exact ⟨hwork, hcnt, hle⟩

theorem C7_single_visit_termination_witness :
    (floodWith stackPush 1 1 (is_background (0, 0, 0) (20, 20, 20) false false)
        imgGray [((0 : ℤ), (0 : ℤ))]).work = [] ∧
    (floodWith stackPush 1 1 (is_background (0, 0, 0) (20, 20, 20) false false)
        imgGray [((0 : ℤ), (0 : ℤ))]).count =
      (floodWith stackPush 1 1 (is_background (0, 0, 0) (20, 20, 20) false false)
        imgGray [((0 : ℤ), (0 : ℤ))]).visited.card ∧
    (floodWith stackPush 1 1 (is_background (0, 0, 0) (20, 20, 20) false false)
        imgGray [((0 : ℤ), (0 : ℤ))]).count ≤ 1 * 1 :=
  C7_single_visit_termination imgGray 1 1 (0, 0, 0) (20, 20, 20) false false
    [(0, 0)] (by decide) (by decide)

/-- C9 (confirmed): the flood-mode result — final raster and modified-pixel
count — is the same for the source's LIFO stack discipline and for a FIFO
queue discipline. -/
theorem C9_worklist_equiv (img : Pos → Pixel) (W H : ℕ) (lower upper : Color)
    (inverse use_hsv : Bool) (manual : List Pos) (hW : 0 < W) (hH : 0 < H) :
    (process_image img W H lower upper inverse true manual use_hsv).2 =
      (floodWith queuePush W H (is_background lower upper inverse use_hsv)
        img manual).count ∧
    ∀ c, (process_image img W H lower upper inverse true manual use_hsv).1 c =
      (floodWith queuePush W H (is_background lower upper inverse use_hsv)
        img manual).img c := by
  rw [process_image_flood]
  obtain ⟨hw1, hv1, hc1, hi1, hle1⟩ :=
    floodWith_spec stackPush_spec hW hH (is_background lower upper inverse use_hsv)
      img manual
  obtain ⟨hw2, hv2, hc2, hi2, hle2⟩ :=
    floodWith_spec queuePush_spec hW hH (is_background lower upper inverse use_hsv)
      img manual
  have hveq : (floodWith stackPush W H (is_background lower upper inverse use_hsv)
      img manual).visited =
      (floodWith queuePush W H (is_background lower upper inverse use_hsv)
        img manual).visited :=
    Finset.ext (fun c => (hv1 c).trans ((hv2 c).symm))
  constructor
  · show (floodWith stackPush W H (is_background lower upper inverse use_hsv)
      img manual).count = _
    rw [hc1, hc2, hveq]
  · intro c
    show (floodWith stackPush W H (is_background lower upper inverse use_hsv)
      img manual).img c = _
    rw [hi1 c, hi2 c, hveq]

theorem C9_worklist_equiv_witness :
    (process_image imgGray 1 1 (0, 0, 0) (20, 20, 20) false true [] false).2 =
      (floodWith queuePush 1 1 (is_background (0, 0, 0) (20, 20, 20) false false)
        imgGray []).count ∧
    (process_image imgGray 1 1 (0, 0, 0) (20, 20, 20) false true [] false).1 (0, 0) =
      (floodWith queuePush 1 1 (is_background (0, 0, 0) (20, 20, 20) false false)
        imgGray []).img (0, 0) :=
  ⟨(C9_worklist_equiv imgGray 1 1 (0, 0, 0) (20, 20, 20) false false []
      (by decide) (by decide)).1,
   (C9_worklist_equiv imgGray 1 1 (0, 0, 0) (20, 20, 20) false false []
      (by decide) (by decide)).2 (0, 0)⟩

/-- C4 (corrected, counterexample): under HSV mode the hue component `200`
(outside the documented `[0,179]` but inside `[0,255]`) is accepted by
`parse_color` and by `main`'s parsing gate — no error, no exit — so
processing proceeds to image I/O. -/
theorem C4_counterexample :
    parse_color ("200,100,100") = some (200, 100, 100) ∧
    mainParseColors ("200,100,100") ("210,255,255") =
      some ((200, 100, 100), (210, 255, 255)) ∧
    (179 : ℤ) < 200 ∧ (200 : ℤ) ≤ 255 :=
  ⟨by decide, by decide, by decide, by decide⟩

/-- C4 (corrected): `parse_color` validates components only against
`[0,255]`, independently of the color-space flag: whenever it succeeds,
every component lies in `[0,255]` — and (per the counterexample) any value
in `[0,255]` is accepted, so an HSV hue in `(179,255]` is not an error. -/
theorem C4_amended (s : String) (r g b : ℤ)
    (h : parse_color s = some (r, g, b)) :
    0 ≤ r ∧ r ≤ 255 ∧ 0 ≤ g ∧ g ≤ 255 ∧ 0 ≤ b ∧ b ≤ 255 := by
  unfold parse_color at h
  split at h
  · split at h
    · split at h
      · rename_i hguard
        simp only [Option.some.injEq, Prod.mk.injEq] at h
        obtain ⟨h1, h2, h3⟩ := h
        subst h1
        subst h2
        subst h3
        exact hguard
      · simp at h
    · simp at h
  · simp at h

theorem C4_amended_witness :
    parse_color ("10,20,30") = some (10, 20, 30) ∧
    ((0 : ℤ) ≤ 10 ∧ (10 : ℤ) ≤ 255 ∧ (0 : ℤ) ≤ 20 ∧ (20 : ℤ) ≤ 255 ∧
      (0 : ℤ) ≤ 30 ∧ (30 : ℤ) ≤ 255) :=
  ⟨by decide, C4_amended ("10,20,30") 10 20 30 (by decide)⟩
